import Mathlib

/-!
# Verification of the git-sub core engine

A shallow embedding of the core of the `git-sub` tool (sources:
`src/diff_filter.rs`, `src/status.rs`, `src/log.rs`) together with proofs
about the embedded definitions.

Conventions of the embedding:
* commit ids and repository handles are `Nat`; committer timestamps are `Int`
  (git stores seconds as a signed 64-bit value, overflow is irrelevant here);
* the VCS backend (libgit2) is an external collaborator: the data it returns
  (status entry flag sets, tree diffs, tree walks) appears as explicit data in
  the model structures;
* Rust's `BinaryHeap` is modelled as an unordered list together with a
  `popMax` operation that removes a maximal element.  `BinaryHeap::pop` leaves
  the order among equal elements unspecified; the model deterministically
  prefers the element appearing earlier in the list;
* recursion over externally supplied trees (submodule forests, glob
  backtracking) uses an explicit fuel parameter; every real run corresponds to
  a sufficiently large fuel value.
-/

/-! ## Diff classifier and filter (`src/diff_filter.rs`) -/

/-- The six-flag filter structure, from `struct DiffFilter`. -/
structure DiffFilter where
  add : Bool
  deleted : Bool
  modified : Bool
  rename : Bool
  type_changed : Bool
  unknown : Bool
deriving DecidableEq

/-- `DiffFilter::default`: every category enabled. -/
def DiffFilter.default : DiffFilter :=
  ⟨true, true, true, true, true, true⟩

/-- One iteration of the `for c in s.chars()` loop in `DiffFilter::from`:
an uppercase letter sets the corresponding flag to `true`, a lowercase letter
sets it to `false`, any other character is ignored. -/
def DiffFilter.update (me : DiffFilter) (c : Char) : DiffFilter :=
  if c = 'a' || c = 'A' then { me with add := c.isUpper }
  else if c = 'd' || c = 'D' then { me with deleted := c.isUpper }
  else if c = 'm' || c = 'M' then { me with modified := c.isUpper }
  else if c = 'r' || c = 'R' then { me with rename := c.isUpper }
  else if c = 't' || c = 'T' then { me with type_changed := c.isUpper }
  else if c = 'u' || c = 'U' then { me with unknown := c.isUpper }
  else me

/-- `DiffFilter::from(s)`: start from all-disabled and fold the pattern
characters over it. -/
def DiffFilter.fromPattern (s : String) : DiffFilter :=
  s.toList.foldl DiffFilter.update ⟨false, false, false, false, false, false⟩

/-- A git status flag set as delivered by the backend (`git2::Status`),
restricted to the bits the program inspects. -/
structure GitStatus where
  index_new : Bool
  index_modified : Bool
  index_deleted : Bool
  index_renamed : Bool
  index_typechange : Bool
  wt_new : Bool
  wt_modified : Bool
  wt_deleted : Bool
  wt_renamed : Bool
  wt_typechange : Bool
deriving DecidableEq

/-- `DiffFilter::test`: classify a status into one of the six categories with
the fixed priority order of the source and return that category's flag. -/
def DiffFilter.test (f : DiffFilter) (st : GitStatus) : Bool :=
  if st.index_new || st.wt_new then f.add
  else if st.index_modified || st.wt_modified then f.modified
  else if st.index_deleted || st.wt_deleted then f.deleted
  else if st.index_renamed || st.wt_renamed then f.rename
  else if st.index_typechange || st.wt_typechange then f.type_changed
  else f.unknown

/-- Deletion of all lowercase characters from a pattern string (the
transformation claimed to be a no-op for `DiffFilter::from`). -/
def dropLowercase (s : String) : String :=
  String.mk (s.toList.filter (fun c => !c.isLower))

/-- `noReDisable l` holds when no lowercase letter of `{a,d,m,r,t,u}` occurs
after an uppercase occurrence of the same letter, i.e. no character of the
pattern ever re-disables a category that an earlier character enabled. -/
def noReDisable : List Char → Bool
  | [] => true
  | c :: rest =>
    (if c = 'A' then !(decide ('a' ∈ rest))
     else if c = 'D' then !(decide ('d' ∈ rest))
     else if c = 'M' then !(decide ('m' ∈ rest))
     else if c = 'R' then !(decide ('r' ∈ rest))
     else if c = 'T' then !(decide ('t' ∈ rest))
     else if c = 'U' then !(decide ('u' ∈ rest))
     else true) && noReDisable rest

/-- Compatibility of a fold accumulator with the rest of a pattern: any flag
already enabled has no corresponding lowercase letter still to come. -/
def accCompat (acc : DiffFilter) (l : List Char) : Prop :=
  (acc.add = true → 'a' ∉ l) ∧ (acc.deleted = true → 'd' ∉ l)
    ∧ (acc.modified = true → 'm' ∉ l) ∧ (acc.rename = true → 'r' ∉ l)
    ∧ (acc.type_changed = true → 't' ∉ l) ∧ (acc.unknown = true → 'u' ∉ l)

/-! ## Status aggregator (`src/status.rs`) -/

/-- `enum ShowOption`. -/
inductive ShowOption where
  | Index
  | WorkTree
  | Both
deriving DecidableEq

/-- The repository operational state (`git2::RepositoryState`), restricted to
the distinction the program makes (`Clean` versus everything else). -/
inductive RepositoryState where
  | Clean
  | Merge
  | Rebase
  | CherryPick
  | Bisect
deriving DecidableEq

/-- The fields of `StatusArgs` the aggregation logic reads.  The status-option
configuration handed to the backend is part of the backend model (the status
entry lists stored on each repository node). -/
structure StatusArgs where
  show_option : ShowOption
  diff_filter : DiffFilter
  all : Bool

/-- A repository node of the forest: its working-directory path, the raw
status entries the backend reports for `StatusShow::Index` and
`StatusShow::Workdir`, its operational state, its currently checked-out
commit (`repo.head().resolve().target()`), and its submodules, each paired
with the commit the parent pins for it (`sub.head_id()`). -/
inductive RepoNode where
  | mk (path : String) (indexEntries : List GitStatus) (worktreeEntries : List GitStatus)
       (state : RepositoryState) (head_id : Nat) (subs : List (Nat × RepoNode))

def RepoNode.path : RepoNode → String
  | .mk p _ _ _ _ _ => p

def RepoNode.indexEntries : RepoNode → List GitStatus
  | .mk _ i _ _ _ _ => i

def RepoNode.worktreeEntries : RepoNode → List GitStatus
  | .mk _ _ w _ _ _ => w

def RepoNode.state : RepoNode → RepositoryState
  | .mk _ _ _ s _ _ => s

def RepoNode.head_id : RepoNode → Nat
  | .mk _ _ _ _ h _ => h

def RepoNode.subs : RepoNode → List (Nat × RepoNode)
  | .mk _ _ _ _ _ s => s

/-- The `index_statuses` binding of `show_repo_status`: the backend is asked
for index statuses only when the show option is `Both` or `Index`. -/
def indexStatuses (args : StatusArgs) (repo : RepoNode) : Option (List GitStatus) :=
  match args.show_option with
  | ShowOption.Both | ShowOption.Index => some repo.indexEntries
  | _ => none

/-- The `index_stat_vec` binding: the reported entries filtered through the
diff filter, or the empty list when no query was made. -/
def indexStatVec (args : StatusArgs) (repo : RepoNode) : List GitStatus :=
  match indexStatuses args repo with
  | some s => s.filter (fun st => args.diff_filter.test st)
  | none => []

/-- The `work_tree_statuses` binding of `show_repo_status`. -/
def workTreeStatuses (args : StatusArgs) (repo : RepoNode) : Option (List GitStatus) :=
  match args.show_option with
  | ShowOption.Both | ShowOption.WorkTree => some repo.worktreeEntries
  | _ => none

/-- The `work_tree_stat_vec` binding. -/
def workTreeStatVec (args : StatusArgs) (repo : RepoNode) : List GitStatus :=
  match workTreeStatuses args repo with
  | some s => s.filter (fun st => args.diff_filter.test st)
  | none => []

/-- The selection condition of `show_repo_status` (the big `if` deciding
whether the repository's block is printed). -/
def selectRepo (args : StatusArgs) (repo : RepoNode) (head : Nat) : Bool :=
  args.all || !(indexStatVec args repo).isEmpty || !(workTreeStatVec args repo).isEmpty
    || decide (repo.state ≠ RepositoryState.Clean) || decide (repo.head_id ≠ head)

/-- One output block of the status report: the data printed for a selected
repository (its path, current head, the pin it was compared against, its
state, and the two change counts). -/
structure Block where
  path : String
  head_id : Nat
  pinned : Nat
  state : RepositoryState
  stagedCount : Nat
  workTreeCount : Nat
deriving DecidableEq

/-- The block `show_repo_status` prints for a selected repository. -/
def mkBlock (args : StatusArgs) (repo : RepoNode) (head : Nat) : Block :=
  ⟨repo.path, repo.head_id, head, repo.state,
    (indexStatVec args repo).length, (workTreeStatVec args repo).length⟩

/-- `show_repo_status`: emit the node's own block when selected, then recurse
into every submodule with the pin the parent records for it.  The fuel
argument bounds the recursion depth; the real forest is finite, so every run
is `showRepoStatus` at a sufficiently large fuel. -/
def showRepoStatus (args : StatusArgs) : Nat → RepoNode → Nat → List Block
  | 0, _, _ => []
  | fuel + 1, repo, head =>
    (if selectRepo args repo head then [mkBlock args repo head] else [])
      ++ (repo.subs.map (fun s => showRepoStatus args fuel s.2 s.1)).flatten

/-! ## Commit frontier walker (`src/log.rs`) -/

/-- One commit of the backend's object store: its repository, id, committer
timestamp and parent ids (parents live in the same repository). -/
structure CommitRec where
  repo : Nat
  cid : Nat
  time : Int
  parents : List Nat
deriving DecidableEq

/-- The backend object store for a forest of repositories. -/
abbrev Store := List CommitRec

/-- Lookup of a commit by repository and id (`Repository::find_commit`). -/
def findC (s : Store) (r c : Nat) : Option CommitRec :=
  List.find? (fun x => x.repo == r && x.cid == c) s

/-- `Commit::time` of the commit `c` of repository `r`. -/
def timeOf (s : Store) (r c : Nat) : Int :=
  ((findC s r c).map (fun x => x.time)).getD 0

/-- `Commit::parents` of the commit `c` of repository `r`. -/
def parentsOf (s : Store) (r c : Nat) : List Nat :=
  ((findC s r c).map (fun x => x.parents)).getD []

/-- `struct CommitWrapper`: a frontier entry — commit id, cached committer
timestamp, mount path of the originating repository, and the repository. -/
structure CommitWrapper where
  cid : Nat
  t : Int
  p : String
  r : Nat
deriving DecidableEq

/-- `CommitWrapper::new`: wrap a commit, caching its timestamp. -/
def CommitWrapper.new (s : Store) (c : Nat) (path : String) (repo : Nat) : CommitWrapper :=
  ⟨c, timeOf s repo c, path, repo⟩

/-- `impl PartialEq for CommitWrapper`: equality compares ONLY the cached
timestamps — commit id and repository are not consulted. -/
def wrapperEq (a b : CommitWrapper) : Bool :=
  a.t == b.t

/-- The frontier entries pushed for the parents of an emitted entry:
`latest.c.parents().for_each(|c| heads.push(CommitWrapper::new(c, latest.p,
latest.r)))` — same repository, same mount path, the parent's own time. -/
def parentEntries (s : Store) (e : CommitWrapper) : List CommitWrapper :=
  (parentsOf s e.r e.cid).map (fun pid => CommitWrapper.new s pid e.p e.r)

/-- `BinaryHeap::pop` on the frontier: remove a maximal-timestamp entry.
Rust leaves the order among equal elements unspecified; the model prefers
the element appearing earlier in the list. -/
def popMax : List CommitWrapper → Option (CommitWrapper × List CommitWrapper)
  | [] => none
  | x :: xs =>
    match popMax xs with
    | none => some (x, [])
    | some (m, rest) => if x.t < m.t then some (m, x :: rest) else some (x, xs)

/-- One step of `CommitsWalker::next`: pop the maximum `latest`; the inner
`loop` then pops every entry that compares equal to `latest` (equality being
`wrapperEq`, i.e. timestamp equality) without emitting it; finally the parents
of `latest` are pushed and `latest` is emitted. -/
def step (s : Store) (heap : List CommitWrapper) : Option (CommitWrapper × List CommitWrapper) :=
  match popMax heap with
  | none => none
  | some (latest, rest) =>
    some (latest, rest.filter (fun e => !(wrapperEq e latest)) ++ parentEntries s latest)

/-- The first `fuel` emissions of the walker started on the given frontier. -/
def walkN (s : Store) : Nat → List CommitWrapper → List CommitWrapper
  | 0, _ => []
  | fuel + 1, heap =>
    match step s heap with
    | none => []
    | some (e, heap2) => e :: walkN s fuel heap2

/-- Well-formedness of a frontier entry: its cached timestamp is the store's
timestamp of its commit.  Both `CommitWrapper` constructors in the source
cache `c.time()`, so every entry the program builds satisfies this. -/
def WFEntry (s : Store) (e : CommitWrapper) : Prop :=
  e.t = timeOf s e.r e.cid

instance (s : Store) (e : CommitWrapper) : Decidable (WFEntry s e) := by
  unfold WFEntry; infer_instance

/-- Timestamp monotonicity of a store: no parent commit is newer than its
child. -/
def StoreMono (s : Store) : Prop :=
  ∀ c ∈ s, ∀ p ∈ c.parents, timeOf s c.repo p ≤ c.time

instance (s : Store) : Decidable (StoreMono s) := by
  unfold StoreMono; infer_instance

/-- Acyclicity of a store, witnessed by a rank function that strictly
decreases from child to parent within each repository. -/
def StoreRanked (s : Store) (rank : Nat → Nat → Nat) : Prop :=
  ∀ c ∈ s, ∀ p ∈ c.parents, rank c.repo p < rank c.repo c.cid

instance (s : Store) (rank : Nat → Nat → Nat) : Decidable (StoreRanked s rank) := by
  unfold StoreRanked; infer_instance

/-- The emission-order relation the walker maintains: non-increasing
timestamp, and strictly decreasing rank among equal timestamps. -/
def RelR (rank : Nat → Nat → Nat) (a b : CommitWrapper) : Prop :=
  b.t ≤ a.t ∧ (b.t = a.t → rank b.r b.cid < rank a.r a.cid)

/-! ## Pathspec filtering of history (`src/log.rs`, `test_pathspec`) -/

/-- `git2::Delta`: the change kind of one diff delta. -/
inductive Delta where
  | Added
  | Conflicted
  | Copied
  | Deleted
  | Ignored
  | Modified
  | Renamed
  | Typechange
  | Unmodified
  | Unreadable
  | Untracked
deriving DecidableEq

/-- One delta of a backend tree diff: change kind, old path, new path
(paths relative to the commit's own repository). -/
structure DeltaRec where
  status : Delta
  old_file : String
  new_file : String
deriving DecidableEq

/-- The view of a commit that the log filter pipeline consumes: the mount
path `p` of its repository (the `CommitWrapper` field), its message and
author, and, for each parent, the deltas of the backend tree diff
`diff_tree_to_tree(parent.tree, commit.tree)` (one list per parent; a
parentless commit has an empty list of diffs). -/
structure LogCommit where
  p : String
  message : String
  author : String
  parentDiffs : List (List DeltaRec)

/-- `Path::join` on the slash-separated path model. -/
def joinPath (base rel : String) : String :=
  base ++ "/" ++ rel

/-- `Path::strip_prefix(...).unwrap()` on the slash-separated path model.
The source unwraps the result; its callers only pass paths lying below the
prefix, where the result is the remainder. -/
def stripPfx (path pre : String) : String :=
  if (pre ++ "/").toList.isPrefixOf path.toList then String.mk (path.toList.drop (pre.length + 1))
  else if path = pre then ""
  else path

/-- `test_pathspec`: the commit qualifies when, against some parent, some
delta's path — joined onto the repository's mount path and re-expressed
relative to the root working directory — matches the pathspec; for renames
both the new and the old path are tried.  The pathspec itself is the external
matcher (`git2::Pathspec::matches_path`), modelled as a predicate. -/
def test_pathspec (c : LogCommit) (pathspec : String → Bool) (work_dir : String) : Bool :=
  c.parentDiffs.any (fun deltas =>
    deltas.any (fun d =>
      let new_path := joinPath c.p d.new_file
      if d.status = Delta.Renamed then
        (pathspec (stripPfx new_path work_dir) || pathspec (stripPfx (joinPath c.p d.old_file) work_dir))
      else
        pathspec (stripPfx new_path work_dir)))

/-- The root-relative rewritten paths of one delta, as the spec describes
them: the new path, and for renames also the old path, each joined onto the
commit's mount path and taken relative to the root working directory. -/
def rewrittenPaths (c : LogCommit) (work_dir : String) (d : DeltaRec) : List String :=
  if d.status = Delta.Renamed then
    [stripPfx (joinPath c.p d.new_file) work_dir, stripPfx (joinPath c.p d.old_file) work_dir]
  else
    [stripPfx (joinPath c.p d.new_file) work_dir]

/-- Modelled from the spec: the glob-style pattern matcher of the Pathspec
collaborator (`git2::Pathspec`), which is not part of this repository's
sources.  `*` matches any character sequence (git pathspec globs are not
slash-bounded), `?` matches one character, anything else matches itself.
The fuel is `pattern length + string length + 1`, enough for the
backtracking recursion. -/
def globAux : Nat → List Char → List Char → Bool
  | 0, _, _ => false
  | _ + 1, [], [] => true
  | f + 1, '*' :: ps, [] => globAux f ps []
  | _ + 1, _ :: _, [] => false
  | _ + 1, [], _ :: _ => false
  | f + 1, '*' :: ps, c :: cs => globAux f ps (c :: cs) || globAux f ('*' :: ps) cs
  | f + 1, p :: ps, c :: cs => (p == c || p == '?') && globAux f ps cs

/-- Modelled from the spec: glob matching on strings. -/
def globMatch (pat s : String) : Bool :=
  globAux (pat.length + s.length + 1) pat.toList s.toList

/-- The message-regex stage of the `show_log` filter pipeline. -/
def passGrep : Option (String → Bool) → LogCommit → Bool
  | some g, c => g c.message
  | none, _ => true

/-- The author-regex stage of the `show_log` filter pipeline. -/
def passAuthor : Option (String → Bool) → LogCommit → Bool
  | some a, c => a c.author
  | none, _ => true

/-- The pathspec stage of the `show_log` filter pipeline. -/
def passPathspec (ps : Option (String → Bool)) (work_dir : String) (c : LogCommit) : Bool :=
  match ps with
  | some p => test_pathspec c p work_dir
  | none => true

/-- The `filter` closure of `show_log`: a commit is kept when it passes the
optional grep, author and pathspec predicates (the source returns `false` at
the first failing stage). -/
def logFilter (grep author ps : Option (String → Bool)) (work_dir : String) (c : LogCommit) : Bool :=
  passGrep grep c && passAuthor author c && passPathspec ps work_dir c

/-! ## Revision-scoped forest discovery (`src/log.rs`,
`collect_submodule_heads_with_rev` and the seeding in `show_log`) -/

/-- The backend view needed by revision-scoped discovery: `treeLinks r c` is
the list of commit-link entries (name, pinned id) found by walking the tree
of commit `c` of repository `r` in preorder, and `findSub r n` is the
repository handle obtained by `find_submodule(n).open()` in repository `r`. -/
structure ForestEnv where
  treeLinks : Nat → Nat → List (String × Nat)
  findSub : Nat → String → Nat

/-- `collect_submodule_heads_with_rev`: for every commit-link entry of the
revision's tree, push the pinned id onto `heads` BEFORE recursing into the
child, recurse, then push the child repository onto `sub_mods` AFTER
recursing.  The accumulator pair is (`heads`, `sub_mods`). -/
def collectHeads : Nat → ForestEnv → Nat → Nat → List Nat × List Nat → List Nat × List Nat
  | 0, _, _, _, acc => acc
  | fuel + 1, env, repo, rev, acc =>
    (env.treeLinks repo rev).foldl
      (fun a link =>
        let sub := env.findSub repo link.1
        let a1 := (a.1 ++ [link.2], a.2)
        let a2 := collectHeads fuel env sub link.2 a1
        (a2.1, a2.2 ++ [sub]))
      acc

/-- The seeding of `show_log` in revision mode: collect, append the root's
revision to the oids and the root repository to the repository list, then
pair them positionally — `repos[i].find_commit(oids[i])`.  The result is the
list of (repository, commit-id) pairs the frontier is seeded from. -/
def revScopedSeeds (env : ForestEnv) (fuel : Nat) (rootRepo rootRev : Nat) : List (Nat × Nat) :=
  let c := collectHeads fuel env rootRepo rootRev ([], [])
  let oids := c.1 ++ [rootRev]
  let repos := c.2 ++ [rootRepo]
  repos.zip oids

/-- The (repository, commit-id) pairs that revision-scoped discovery is
specified to produce (spec §4.1 mode (b)): every commit-link entry found
while walking the revision's tree contributes the pair of the child
repository the link belongs to and the id pinned by the link, recursively. -/
def specForestPairs : Nat → ForestEnv → Nat → Nat → List (Nat × Nat)
  | 0, _, _, _ => []
  | fuel + 1, env, repo, rev =>
    (env.treeLinks repo rev).foldl
      (fun acc link =>
        let sub := env.findSub repo link.1
        acc ++ [(sub, link.2)] ++ specForestPairs fuel env sub link.2)
      []

/-! ## Concrete inputs used by counterexamples and witnesses -/

/-- Two distinct root commits sharing a timestamp (for the collapse claim). -/
def c1Store : Store :=
  [⟨0, 0, 5, []⟩, ⟨0, 1, 5, []⟩]

/-- A frontier holding both commits of `c1Store`. -/
def c1Heap : List CommitWrapper :=
  [⟨0, 5, "root", 0⟩, ⟨1, 5, "root", 0⟩]

/-- A child commit older than its parent (for the ordering claim): commit 0
at time 0 has parent 1 at time 5. -/
def c2Store : Store :=
  [⟨0, 0, 0, [1]⟩, ⟨0, 1, 5, []⟩]

/-- The frontier seeded with the child commit of `c2Store`. -/
def c2Seeds : List CommitWrapper :=
  [⟨0, 0, "root", 0⟩]

/-- A diamond with a non-monotone timestamp (for the at-most-once claim):
commit 3 (time 10) is a parent of both commit 1 (time 20) and commit 2
(time 5). -/
def c3Store : Store :=
  [⟨0, 1, 20, [3]⟩, ⟨0, 2, 5, [3]⟩, ⟨0, 3, 10, []⟩]

/-- The frontier seeded with both children of commit 3 of `c3Store`. -/
def c3Seeds : List CommitWrapper :=
  [⟨1, 20, "root", 0⟩, ⟨2, 5, "root", 0⟩]

/-- A monotone, ranked store used by the walker witnesses: a chain
2 ← 1 ← 0 (commit 2 newest) plus a second repository head. -/
def wStore : Store :=
  [⟨0, 2, 30, [1]⟩, ⟨0, 1, 20, [0]⟩, ⟨0, 0, 10, []⟩, ⟨1, 7, 25, []⟩]

/-- Seeds for `wStore`: the head of each repository. -/
def wSeeds : List CommitWrapper :=
  [⟨2, 30, "root", 0⟩, ⟨7, 25, "root/sub", 1⟩]

/-- The nested-forest environment exhibiting the discovery mis-pairing:
repository 0 at revision 100 pins submodule `A` (repository 1) at commit 10;
commit 10 of repository 1 pins submodule `B` (repository 2) at commit 20. -/
def c4Env : ForestEnv where
  treeLinks := fun r c =>
    if r = 0 && c = 100 then [("A", 10)]
    else if r = 1 && c = 10 then [("B", 20)]
    else []
  findSub := fun r n =>
    if r = 0 && n = "A" then 1
    else if r = 1 && n = "B" then 2
    else 0

/-- A commit of a repository mounted at `libs/foo` whose only change is a
modification of `x.c` (for the pathspec claim). -/
def libsCommit : LogCommit :=
  ⟨"/root/libs/foo", "msg", "au", [[⟨Delta.Modified, "x.c", "x.c"⟩]]⟩

/-- A parentless commit (for the parentless-pathspec claim). -/
def rootCommit : LogCommit :=
  ⟨"/root", "init", "au", []⟩

/-- Status arguments: both sets shown, permissive filter, print-all off. -/
def wArgs : StatusArgs :=
  ⟨ShowOption.Both, DiffFilter.default, false⟩

/-- A drifted child repository: checked out at 9 (for the status claims). -/
def wChild : RepoNode :=
  RepoNode.mk "root/sub" [] [] RepositoryState.Clean 9 []

/-- A clean parent repository pinning `wChild` at commit 7 while `wChild` is
checked out at 9 (head drift at the child, none at the parent). -/
def wParent : RepoNode :=
  RepoNode.mk "root" [] [] RepositoryState.Clean 5 [(7, wChild)]

/-! ## Helper lemmas -/

theorem popMax_mem {H : List CommitWrapper} {m : CommitWrapper} {rest : List CommitWrapper}
    (h : popMax H = some (m, rest)) : m ∈ H := by
  induction H generalizing m rest with
  | nil => simp [popMax] at h
  | cons x xs ih =>
    simp only [popMax] at h
    cases hx : popMax xs with
    | none =>
      rw [hx] at h
      simp at h
      simp [h.1]
    | some p =>
      obtain ⟨m2, rest2⟩ := p
      rw [hx] at h
      by_cases hlt : x.t < m2.t
      · simp [hlt] at h
        exact List.mem_cons_of_mem x (h.1 ▸ ih hx)
      · simp [hlt] at h
        simp [h.1]

theorem popMax_rest_subset {H : List CommitWrapper} {m : CommitWrapper} {rest : List CommitWrapper}
    (h : popMax H = some (m, rest)) : ∀ x ∈ rest, x ∈ H := by
  induction H generalizing m rest with
  | nil => simp [popMax] at h
  | cons x xs ih =>
    simp only [popMax] at h
    cases hx : popMax xs with
    | none =>
      rw [hx] at h
      simp at h
      simp [h.2]
    | some p =>
      obtain ⟨m2, rest2⟩ := p
      rw [hx] at h
      by_cases hlt : x.t < m2.t
      · simp [hlt] at h
        intro y hy
        rw [← h.2] at hy
        rcases List.mem_cons.1 hy with hy1 | hy2
        · simp [hy1]
        · exact List.mem_cons_of_mem x (ih hx y hy2)
      · simp [hlt] at h
        intro y hy
        exact List.mem_cons_of_mem x (h.2 ▸ hy)

theorem popMax_none {H : List CommitWrapper} (h : popMax H = none) : H = [] := by
  cases H with
  | nil => rfl
  | cons x xs =>
    simp only [popMax] at h
    cases hx : popMax xs with
    | none => rw [hx] at h; simp at h
    | some p => obtain ⟨m2, rest2⟩ := p; rw [hx] at h; by_cases hlt : x.t < m2.t
                · simp [hlt] at h
                · simp [hlt] at h

theorem popMax_le {H : List CommitWrapper} {m : CommitWrapper} {rest : List CommitWrapper}
    (h : popMax H = some (m, rest)) : ∀ x ∈ H, x.t ≤ m.t := by
  induction H generalizing m rest with
  | nil => simp [popMax] at h
  | cons x xs ih =>
    simp only [popMax] at h
    cases hx : popMax xs with
    | none =>
      rw [hx] at h
      simp at h
      have hxs : xs = [] := popMax_none hx
      subst hxs
      intro y hy
      simp at hy
      simp [hy, h.1]
    | some p =>
      obtain ⟨m2, rest2⟩ := p
      rw [hx] at h
      by_cases hlt : x.t < m2.t
      · simp [hlt] at h
        intro y hy
        rcases List.mem_cons.1 hy with hy1 | hy2
        · exact hy1 ▸ (h.1 ▸ le_of_lt hlt)
        · exact h.1 ▸ ih hx y hy2
      · simp [hlt] at h
        intro y hy
        rcases List.mem_cons.1 hy with hy1 | hy2
        · exact hy1 ▸ (h.1 ▸ le_refl x.t)
        · exact h.1 ▸ le_trans (ih hx y hy2) (le_of_not_lt hlt)

theorem findC_spec {s : Store} {r c : Nat} {x : CommitRec} (h : findC s r c = some x) :
    x ∈ s ∧ x.repo = r ∧ x.cid = c := by
  have hm := List.mem_of_find?_eq_some h
  have hp := List.find?_some h
  simp only [Bool.and_eq_true, beq_iff_eq] at hp
  exact ⟨hm, hp.1, hp.2⟩

theorem parentEntries_wf (s : Store) (e : CommitWrapper) :
    ∀ x ∈ parentEntries s e, WFEntry s x := by
  intro x hx
  simp only [parentEntries, List.mem_map] at hx
  obtain ⟨pid, _, rfl⟩ := hx
  rfl

theorem parentEntries_le (s : Store) (hm : StoreMono s) (e : CommitWrapper)
    (hwf : WFEntry s e) : ∀ x ∈ parentEntries s e, x.t ≤ e.t := by
  intro x hx
  simp only [parentEntries, List.mem_map] at hx
  obtain ⟨pid, hpid, rfl⟩ := hx
  unfold parentsOf at hpid
  cases hf : findC s e.r e.cid with
  | none => rw [hf] at hpid; simp at hpid
  | some cr =>
    rw [hf] at hpid
    simp at hpid
    obtain ⟨hmem, hrepo, _⟩ := findC_spec hf
    have hle := hm cr hmem pid hpid
    have het : e.t = cr.time := by
      rw [hwf]; unfold timeOf; rw [hf]; rfl
    show timeOf s e.r pid ≤ e.t
    rw [het, ← hrepo]
    exact hle

theorem parentEntries_rank (s : Store) (rank : Nat → Nat → Nat) (hr : StoreRanked s rank)
    (e : CommitWrapper) : ∀ x ∈ parentEntries s e, rank x.r x.cid < rank e.r e.cid := by
  intro x hx
  simp only [parentEntries, List.mem_map] at hx
  obtain ⟨pid, hpid, rfl⟩ := hx
  unfold parentsOf at hpid
  cases hf : findC s e.r e.cid with
  | none => rw [hf] at hpid; simp at hpid
  | some cr =>
    rw [hf] at hpid
    simp at hpid
    obtain ⟨hmem, hrepo, hcid⟩ := findC_spec hf
    have hlt := hr cr hmem pid hpid
    show rank e.r pid < rank e.r e.cid
    rw [← hrepo, ← hcid]
    exact hlt

/-! ## Claim theorems -/

/-- Claim C1 (counterexample): the collapse loop removes a frontier entry with
a DIFFERENT commit id without emitting it.  The frontier holds two distinct
commits (ids 0 and 1) that share timestamp 5; one step pops commit 0, drops
commit 1 from the frontier without emitting it, and the whole run emits only
commit 0. -/
theorem collapse_drops_distinct_commit_cex :
    step c1Store c1Heap = some (⟨0, 5, "root", 0⟩, [])
      ∧ (⟨1, 5, "root", 0⟩ : CommitWrapper) ∈ c1Heap
      ∧ (1 : Nat) ≠ 0
      ∧ walkN c1Store 10 c1Heap = [⟨0, 5, "root", 0⟩] := by
  refine ⟨by decide, by decide, by decide, by decide⟩

/-- Claim C1 (amended): in every step of the walker, an entry surviving from
the old frontier is removed without being emitted exactly when its committer
timestamp equals that of the entry just removed — commit id and originating
repository are not compared, because `CommitWrapper`'s equality is timestamp
equality. -/
theorem collapse_is_timestamp_equality (s : Store) (H : List CommitWrapper)
    (latest : CommitWrapper) (rest : List CommitWrapper)
    (h : popMax H = some (latest, rest)) :
    step s H = some (latest, rest.filter (fun e => !(wrapperEq e latest)) ++ parentEntries s latest)
      ∧ ∀ e ∈ rest, (e ∈ rest.filter (fun e => !(wrapperEq e latest)) ↔ e.t ≠ latest.t) := by
  refine ⟨by simp [step, h], ?_⟩
  intro e he
  simp [List.mem_filter, he, wrapperEq]

/-- Witness for `collapse_is_timestamp_equality` at the two-entry frontier. -/
theorem collapse_is_timestamp_equality_witness :
    popMax c1Heap = some (⟨0, 5, "root", 0⟩, [⟨1, 5, "root", 0⟩])
      ∧ ((⟨1, 5, "root", 0⟩ : CommitWrapper)
            ∈ List.filter (fun e => !(wrapperEq e ⟨0, 5, "root", 0⟩)) [⟨1, 5, "root", 0⟩]
          ↔ (⟨1, 5, "root", 0⟩ : CommitWrapper).t ≠ (⟨0, 5, "root", 0⟩ : CommitWrapper).t) :=
  ⟨by decide,
    (collapse_is_timestamp_equality c1Store c1Heap ⟨0, 5, "root", 0⟩ [⟨1, 5, "root", 0⟩]
      (by decide)).2 ⟨1, 5, "root", 0⟩ (by decide)⟩

/-- Claim C4 (code evaluated at the failing input): with nesting depth 2, the
seeding pairs each pinned commit id with the WRONG repository.  Repository 0
at revision 100 pins commit 10 of repository 1, whose tree pins commit 20 of
repository 2; the code seeds the pairs [(2, 10), (1, 20), (0, 100)] — heads
are collected preorder but repositories postorder — while discovery is
specified to produce the pairs [(1, 10), (2, 20)] (plus the root revision).
The correctly matched pair (1, 10) does not occur in the seeding at all. -/
theorem rev_scoped_seeding_mispairs :
    revScopedSeeds c4Env 5 0 100 = [(2, 10), (1, 20), (0, 100)]
      ∧ specForestPairs 5 c4Env 0 100 = [(1, 10), (2, 20)]
      ∧ ((1, 10) : Nat × Nat) ∉ revScopedSeeds c4Env 5 0 100 := by
  refine ⟨by decide, by decide, by decide⟩

/-- Claim C8: `DiffFilter::from("AdM")` enables exactly Added and Modified,
and the default filter enables all six categories. -/
theorem diff_filter_pattern_and_default :
    DiffFilter.fromPattern "AdM" = ⟨true, false, true, false, false, false⟩
      ∧ DiffFilter.default = ⟨true, true, true, true, true, true⟩ := by
  refine ⟨by decide, by decide⟩

/-- Claim C9 (counterexample): deleting lowercase letters is NOT a no-op —
a lowercase letter that follows an uppercase occurrence of the same letter
re-disables the category, so `from("Aa")` (Added disabled) differs from
`from("A")` (Added enabled). -/
theorem diff_filter_lowercase_cex :
    DiffFilter.fromPattern "Aa" ≠ DiffFilter.fromPattern (dropLowercase "Aa") := by
  decide

/-- Claim C5: a commit is accepted by the pathspec filter iff, for some
parent, some delta of the tree diff against that parent has a rewritten path
(mount-path-prefixed, root-relative; old and new paths for renames) matching
the pathspec; concretely, a commit of a repository mounted at `libs/foo`
whose only change is `x.c` is accepted by glob `libs/*` and rejected by
`src/*`. -/
theorem pathspec_filter_characterization :
    (∀ (c : LogCommit) (ps : String → Bool) (wd : String),
        test_pathspec c ps wd = true
          ↔ ∃ ds ∈ c.parentDiffs, ∃ d ∈ ds, ∃ q ∈ rewrittenPaths c wd d, ps q = true)
      ∧ test_pathspec libsCommit (globMatch "libs/*") "/root" = true
      ∧ test_pathspec libsCommit (globMatch "src/*") "/root" = false := by
  refine ⟨fun c ps wd => ?_, by decide, by decide⟩
  simp only [test_pathspec, List.any_eq_true]
  refine exists_congr fun ds => and_congr_right fun _ => ?_
  refine exists_congr fun d => and_congr_right fun _ => ?_
  by_cases h : d.status = Delta.Renamed <;>
    simp [h, rewrittenPaths]

/-- Claim C10: a parentless commit never passes the pathspec test (the test
is an existential over the commit's parents), so whenever a pathspec filter
is supplied, the `show_log` pipeline drops every parentless commit. -/
theorem parentless_commit_filtered_out (c : LogCommit)
    (grep author : Option (String → Bool)) (f : String → Bool) (wd : String)
    (h : c.parentDiffs = []) :
    test_pathspec c f wd = false ∧ logFilter grep author (some f) wd c = false := by
  have h1 : test_pathspec c f wd = false := by simp [test_pathspec, h]
  exact ⟨h1, by simp [logFilter, passPathspec, h1]⟩

/-- Witness for `parentless_commit_filtered_out` at a concrete initial commit. -/
theorem parentless_commit_filtered_out_witness :
    rootCommit.parentDiffs = []
      ∧ (test_pathspec rootCommit (fun _ => true) "/root" = false
          ∧ logFilter none none (some (fun _ => true)) "/root" rootCommit = false) :=
  ⟨rfl, parentless_commit_filtered_out rootCommit none none (fun _ => true) "/root" rfl⟩

theorem selectRepo_eq_true_iff (args : StatusArgs) (repo : RepoNode) (head : Nat) :
    selectRepo args repo head = true
      ↔ (args.all = true ∨ indexStatVec args repo ≠ [] ∨ workTreeStatVec args repo ≠ []
          ∨ repo.state ≠ RepositoryState.Clean ∨ repo.head_id ≠ head) := by
  simp only [selectRepo, Bool.or_eq_true, decide_eq_true_iff, Bool.not_eq_true',
    List.isEmpty_eq_false]
  tauto

/-- Claim C6: the Status Aggregator produces an output block for a visited
repository node iff the print-all flag is set, the filtered INDEX set is
non-empty, the filtered WORKTREE set is non-empty, the operational state is
not clean, or the checked-out commit differs from the pin recorded by the
parent. -/
theorem status_block_iff (args : StatusArgs) (fuel : Nat) (repo : RepoNode) (head : Nat) :
    showRepoStatus args (fuel + 1) repo head
        = mkBlock args repo head
            :: (repo.subs.map (fun sp => showRepoStatus args fuel sp.2 sp.1)).flatten
      ↔ (args.all = true ∨ indexStatVec args repo ≠ [] ∨ workTreeStatVec args repo ≠ []
          ∨ repo.state ≠ RepositoryState.Clean ∨ repo.head_id ≠ head) := by
  rw [← selectRepo_eq_true_iff]
  cases hsel : selectRepo args repo head with
  | true => simp [showRepoStatus, hsel]
  | false =>
    simp only [showRepoStatus, hsel, if_neg Bool.false_ne_true, List.nil_append,
      Bool.false_eq_true, iff_false]
    intro hc
    have hl := congrArg List.length hc
    simp at hl

/-- Claim C7: an unselected repository node contributes no block of its own —
its output is exactly the concatenation of its children's recursive outputs,
each child evaluated against its own recorded pin — and a child that is
selected (here judged against the child's own pin) still surfaces in the
output even though the parent produced no block. -/
theorem status_recursion_unconditional (args : StatusArgs) (fuel : Nat) (repo : RepoNode)
    (head : Nat) (hsel : selectRepo args repo head = false) :
    showRepoStatus args (fuel + 2) repo head
        = (repo.subs.map (fun sp => showRepoStatus args (fuel + 1) sp.2 sp.1)).flatten
      ∧ ∀ pin child, (pin, child) ∈ repo.subs → selectRepo args child pin = true →
          mkBlock args child pin ∈ showRepoStatus args (fuel + 2) repo head := by
  have h1 : showRepoStatus args (fuel + 2) repo head
      = (repo.subs.map (fun sp => showRepoStatus args (fuel + 1) sp.2 sp.1)).flatten := by
    simp [showRepoStatus, hsel]
  refine ⟨h1, ?_⟩
  intro pin child hmem hselc
  rw [h1]
  have h2 : mkBlock args child pin ∈ showRepoStatus args (fuel + 1) child pin := by
    simp [showRepoStatus, hselc]
  exact List.mem_flatten.2 ⟨showRepoStatus args (fuel + 1) child pin,
    List.mem_map.2 ⟨(pin, child), hmem, rfl⟩, h2⟩

/-- Witness for `status_recursion_unconditional`: a clean parent (no output
block) whose submodule drifted from its pin still reports the child. -/
theorem status_recursion_unconditional_witness :
    selectRepo wArgs wParent 5 = false
      ∧ selectRepo wArgs wChild 7 = true
      ∧ mkBlock wArgs wChild 7 ∈ showRepoStatus wArgs 2 wParent 5 :=
  ⟨by decide, by decide,
    (status_recursion_unconditional wArgs 0 wParent 5 (by decide)).2 7 wChild
      (List.mem_singleton.2 rfl) (by decide)⟩

theorem walkN_sorted (s : Store) (hm : StoreMono s) :
    ∀ (fuel : Nat) (H : List CommitWrapper), (∀ x ∈ H, WFEntry s x) →
      ((walkN s fuel H).Pairwise (fun a b => b.t ≤ a.t)
        ∧ ∀ B : Int, (∀ x ∈ H, x.t ≤ B) → ∀ e ∈ walkN s fuel H, e.t ≤ B) := by
  intro fuel
  induction fuel with
  | zero => intro H _; simp [walkN]
  | succ n ih =>
    intro H hwf
    cases hpop : popMax H with
    | none => simp [walkN, step, hpop]
    | some p =>
      obtain ⟨m, rest⟩ := p
      have hstep : step s H
          = some (m, rest.filter (fun e => !(wrapperEq e m)) ++ parentEntries s m) := by
        simp [step, hpop]
      have hwalk : walkN s (n + 1) H
          = m :: walkN s n (rest.filter (fun e => !(wrapperEq e m)) ++ parentEntries s m) := by
        simp [walkN, hstep]
      have hmm : m ∈ H := popMax_mem hpop
      have hwf2 : ∀ x ∈ rest.filter (fun e => !(wrapperEq e m)) ++ parentEntries s m,
          WFEntry s x := by
        intro x hx
        rcases List.mem_append.1 hx with h1 | h2
        · exact hwf x (popMax_rest_subset hpop x (List.mem_of_mem_filter h1))
        · exact parentEntries_wf s m x h2
      have hle2 : ∀ x ∈ rest.filter (fun e => !(wrapperEq e m)) ++ parentEntries s m,
          x.t ≤ m.t := by
        intro x hx
        rcases List.mem_append.1 hx with h1 | h2
        · exact popMax_le hpop x (popMax_rest_subset hpop x (List.mem_of_mem_filter h1))
        · exact parentEntries_le s hm m (hwf m hmm) x h2
      obtain ⟨ihp, ihb⟩ := ih _ hwf2
      constructor
      · rw [hwalk]
        refine List.pairwise_cons.2 ⟨?_, ihp⟩
        intro e he
        exact ihb m.t hle2 e he
      · intro B hB e he
        rw [hwalk] at he
        rcases List.mem_cons.1 he with he1 | he2
        · exact he1 ▸ hB m hmm
        · refine ihb B ?_ e he2
          intro x hx
          rcases List.mem_append.1 hx with h1 | h2
          · exact hB x (popMax_rest_subset hpop x (List.mem_of_mem_filter h1))
          · exact le_trans (parentEntries_le s hm m (hwf m hmm) x h2) (hB m hmm)

theorem walkN_ranked (s : Store) (rank : Nat → Nat → Nat) (hm : StoreMono s)
    (hr : StoreRanked s rank) :
    ∀ (fuel : Nat) (H : List CommitWrapper), (∀ x ∈ H, WFEntry s x) →
      ((walkN s fuel H).Pairwise (RelR rank)
        ∧ (∀ e ∈ walkN s fuel H, WFEntry s e)
        ∧ ∀ (B : Int) (RB : Nat),
            (∀ x ∈ H, x.t ≤ B ∧ (x.t = B → rank x.r x.cid < RB)) →
            ∀ e ∈ walkN s fuel H, e.t ≤ B ∧ (e.t = B → rank e.r e.cid < RB)) := by
  intro fuel
  induction fuel with
  | zero => intro H _; simp [walkN]
  | succ n ih =>
    intro H hwf
    cases hpop : popMax H with
    | none => simp [walkN, step, hpop]
    | some p =>
      obtain ⟨m, rest⟩ := p
      have hstep : step s H
          = some (m, rest.filter (fun e => !(wrapperEq e m)) ++ parentEntries s m) := by
        simp [step, hpop]
      have hwalk : walkN s (n + 1) H
          = m :: walkN s n (rest.filter (fun e => !(wrapperEq e m)) ++ parentEntries s m) := by
        simp [walkN, hstep]
      have hmm : m ∈ H := popMax_mem hpop
      have hwf2 : ∀ x ∈ rest.filter (fun e => !(wrapperEq e m)) ++ parentEntries s m,
          WFEntry s x := by
        intro x hx
        rcases List.mem_append.1 hx with h1 | h2
        · exact hwf x (popMax_rest_subset hpop x (List.mem_of_mem_filter h1))
        · exact parentEntries_wf s m x h2
      have hb2 : ∀ x ∈ rest.filter (fun e => !(wrapperEq e m)) ++ parentEntries s m,
          x.t ≤ m.t ∧ (x.t = m.t → rank x.r x.cid < rank m.r m.cid) := by
        intro x hx
        rcases List.mem_append.1 hx with h1 | h2
        · refine ⟨popMax_le hpop x (popMax_rest_subset hpop x (List.mem_of_mem_filter h1)), ?_⟩
          intro hxt
          have hpred := List.of_mem_filter h1
          simp only [wrapperEq, Bool.not_eq_true', beq_eq_false_iff_ne] at hpred
          exact absurd hxt hpred
        · exact ⟨parentEntries_le s hm m (hwf m hmm) x h2,
            fun _ => parentEntries_rank s rank hr m x h2⟩
      obtain ⟨ihp, ihwf, ihb⟩ := ih _ hwf2
      refine ⟨?_, ?_, ?_⟩
      · rw [hwalk]
        refine List.pairwise_cons.2 ⟨?_, ihp⟩
        intro e he
        exact ihb m.t (rank m.r m.cid) hb2 e he
      · intro e he
        rw [hwalk] at he
        rcases List.mem_cons.1 he with he1 | he2
        · exact he1 ▸ hwf m hmm
        · exact ihwf e he2
      · intro B RB hB e he
        rw [hwalk] at he
        rcases List.mem_cons.1 he with he1 | he2
        · exact he1 ▸ hB m hmm
        · refine ihb B RB ?_ e he2
          intro x hx
          rcases List.mem_append.1 hx with h1 | h2
          · exact hB x (popMax_rest_subset hpop x (List.mem_of_mem_filter h1))
          · have hxm := parentEntries_le s hm m (hwf m hmm) x h2
            have hmB := hB m hmm
            refine ⟨le_trans hxm hmB.1, ?_⟩
            intro hxB
            have hmt : m.t = B := le_antisymm hmB.1 (hxB ▸ hxm)
            exact lt_trans (parentEntries_rank s rank hr m x h2) (hmB.2 hmt)

/-- Claim C2 (counterexample): without an assumption relating a parent's
timestamp to its child's, the walker's output timestamps can INCREASE —
a head at time 0 whose parent has time 5 is emitted before that parent. -/
theorem walker_timestamps_increase_cex :
    walkN c2Store 2 c2Seeds = [⟨0, 0, "root", 0⟩, ⟨1, 5, "root", 0⟩]
      ∧ ¬ (walkN c2Store 2 c2Seeds).Pairwise (fun a b => b.t ≤ a.t) := by
  refine ⟨by decide, by decide⟩

/-- Claim C2 (amended): provided no parent commit is newer than its child
(and the frontier entries cache their commits' store timestamps, as both
`CommitWrapper` constructors do), every emission of the walker has a
timestamp less than or equal to every earlier emission, for any forest and
any seeding. -/
theorem walker_timestamps_nonincreasing (s : Store) (seeds : List CommitWrapper) (fuel : Nat)
    (hwf : ∀ e ∈ seeds, WFEntry s e) (hm : StoreMono s) :
    (walkN s fuel seeds).Pairwise (fun a b => b.t ≤ a.t) :=
  (walkN_sorted s hm fuel seeds hwf).1

/-- Witness for `walker_timestamps_nonincreasing` on a two-repository store. -/
theorem walker_timestamps_nonincreasing_witness :
    (∀ e ∈ wSeeds, WFEntry wStore e) ∧ StoreMono wStore
      ∧ (walkN wStore 6 wSeeds).Pairwise (fun a b => b.t ≤ a.t) :=
  ⟨by decide, by decide,
    walker_timestamps_nonincreasing wStore wSeeds 6 (by decide) (by decide)⟩

/-- Claim C3 (counterexample): without a parent-timestamp assumption a commit
CAN be emitted twice: commit 3 is reachable from the two seeded heads 1 and 2
via separate paths, and the run emits ids [1, 3, 2, 3] — commit 3 of the same
repository appears twice. -/
theorem walker_duplicate_emission_cex :
    (walkN c3Store 4 c3Seeds).map (fun e => e.cid) = [1, 3, 2, 3]
      ∧ ¬ (walkN c3Store 4 c3Seeds).Pairwise (fun a b => ¬ (a.cid = b.cid ∧ a.r = b.r)) := by
  refine ⟨by decide, by decide⟩

/-- Claim C3 (amended): provided no parent commit is newer than its child and
the parent relation is acyclic (witnessed by a rank function decreasing
towards parents), each (commit id, repository) pair is emitted at most once
over the whole run, for any forest and any seeding with well-formed
entries. -/
theorem walker_emits_at_most_once (s : Store) (seeds : List CommitWrapper)
    (rank : Nat → Nat → Nat) (fuel : Nat)
    (hwf : ∀ e ∈ seeds, WFEntry s e) (hm : StoreMono s) (hr : StoreRanked s rank) :
    (walkN s fuel seeds).Pairwise (fun a b => ¬ (a.cid = b.cid ∧ a.r = b.r)) := by
  obtain ⟨hp, hwfall, _⟩ := walkN_ranked s rank hm hr fuel seeds hwf
  refine hp.imp_of_mem ?_
  intro a b ha hb hrel hdup
  have ht : b.t = a.t := by
    rw [hwfall a ha, hwfall b hb, hdup.1, hdup.2]
  have hlt := hrel.2 ht
  rw [hdup.1, hdup.2] at hlt
  exact lt_irrefl _ hlt

/-- Witness for `walker_emits_at_most_once` on a two-repository store with
the identity rank. -/
theorem walker_emits_at_most_once_witness :
    (∀ e ∈ wSeeds, WFEntry wStore e) ∧ StoreMono wStore
      ∧ StoreRanked wStore (fun _ c => c)
      ∧ (walkN wStore 6 wSeeds).Pairwise (fun a b => ¬ (a.cid = b.cid ∧ a.r = b.r)) :=
  ⟨by decide, by decide, by decide,
    walker_emits_at_most_once wStore wSeeds (fun _ c => c) 6 (by decide) (by decide) (by decide)⟩

theorem foldl_update_dropLower :
    ∀ (l : List Char) (acc : DiffFilter), noReDisable l = true → accCompat acc l →
      l.foldl DiffFilter.update acc
        = (l.filter (fun ch => !ch.isLower)).foldl DiffFilter.update acc := by
  intro l
  induction l with
  | nil => intro acc _ _; rfl
  | cons c rest ih =>
    intro acc hnr hcompat
    simp only [noReDisable, Bool.and_eq_true] at hnr
    obtain ⟨hhead, htail⟩ := hnr
    obtain ⟨h1, h2, h3, h4, h5, h6⟩ := hcompat
    have hc' : accCompat acc rest :=
      ⟨fun hx hm => h1 hx (List.mem_cons_of_mem _ hm),
       fun hx hm => h2 hx (List.mem_cons_of_mem _ hm),
       fun hx hm => h3 hx (List.mem_cons_of_mem _ hm),
       fun hx hm => h4 hx (List.mem_cons_of_mem _ hm),
       fun hx hm => h5 hx (List.mem_cons_of_mem _ hm),
       fun hx hm => h6 hx (List.mem_cons_of_mem _ hm)⟩
    by_cases hca : c = 'a'
    · subst hca
      have hacc : acc.add = false := by
        cases hy : acc.add
        · rfl
        · exact absurd (List.mem_cons_self 'a' rest) (h1 hy)
      have hupd : DiffFilter.update acc 'a' = acc := by
        obtain ⟨fa, fd, fm, fr, ft, fu⟩ := acc
        have hacc2 : fa = false := hacc
        subst hacc2
        rfl
      have hfil : List.filter (fun ch => !ch.isLower) ('a' :: rest)
          = List.filter (fun ch => !ch.isLower) rest := rfl
      rw [List.foldl_cons, hupd, hfil]
      exact ih acc htail hc'
    by_cases hcA : c = 'A'
    · subst hcA
      have hna : 'a' ∉ rest := by
        have hhead2 : (!(decide ('a' ∈ rest))) = true := hhead
        simpa [Bool.not_eq_true', decide_eq_false_iff_not] using hhead2
      have hupd : DiffFilter.update acc 'A' = { acc with add := true } := rfl
      have hfil : List.filter (fun ch => !ch.isLower) ('A' :: rest)
          = 'A' :: List.filter (fun ch => !ch.isLower) rest := rfl
      rw [List.foldl_cons, hupd, hfil, List.foldl_cons, hupd]
      refine ih _ htail ⟨fun _ => hna,
        fun hx hm => h2 hx (List.mem_cons_of_mem _ hm),
        fun hx hm => h3 hx (List.mem_cons_of_mem _ hm),
        fun hx hm => h4 hx (List.mem_cons_of_mem _ hm),
        fun hx hm => h5 hx (List.mem_cons_of_mem _ hm),
        fun hx hm => h6 hx (List.mem_cons_of_mem _ hm)⟩
    by_cases hcd : c = 'd'
    · subst hcd
      have hacc : acc.deleted = false := by
        cases hy : acc.deleted
        · rfl
        · exact absurd (List.mem_cons_self 'd' rest) (h2 hy)
      have hupd : DiffFilter.update acc 'd' = acc := by
        obtain ⟨fa, fd, fm, fr, ft, fu⟩ := acc
        have hacc2 : fd = false := hacc
        subst hacc2
        rfl
      have hfil : List.filter (fun ch => !ch.isLower) ('d' :: rest)
          = List.filter (fun ch => !ch.isLower) rest := rfl
      rw [List.foldl_cons, hupd, hfil]
      exact ih acc htail hc'
    by_cases hcD : c = 'D'
    · subst hcD
      have hnd : 'd' ∉ rest := by
        have hhead2 : (!(decide ('d' ∈ rest))) = true := hhead
        simpa [Bool.not_eq_true', decide_eq_false_iff_not] using hhead2
      have hupd : DiffFilter.update acc 'D' = { acc with deleted := true } := rfl
      have hfil : List.filter (fun ch => !ch.isLower) ('D' :: rest)
          = 'D' :: List.filter (fun ch => !ch.isLower) rest := rfl
      rw [List.foldl_cons, hupd, hfil, List.foldl_cons, hupd]
      refine ih _ htail ⟨fun hx hm => h1 hx (List.mem_cons_of_mem _ hm),
        fun _ => hnd,
        fun hx hm => h3 hx (List.mem_cons_of_mem _ hm),
        fun hx hm => h4 hx (List.mem_cons_of_mem _ hm),
        fun hx hm => h5 hx (List.mem_cons_of_mem _ hm),
        fun hx hm => h6 hx (List.mem_cons_of_mem _ hm)⟩
    by_cases hcm : c = 'm'
    · subst hcm
      have hacc : acc.modified = false := by
        cases hy : acc.modified
        · rfl
        · exact absurd (List.mem_cons_self 'm' rest) (h3 hy)
      have hupd : DiffFilter.update acc 'm' = acc := by
        obtain ⟨fa, fd, fm, fr, ft, fu⟩ := acc
        have hacc2 : fm = false := hacc
        subst hacc2
        rfl
      have hfil : List.filter (fun ch => !ch.isLower) ('m' :: rest)
          = List.filter (fun ch => !ch.isLower) rest := rfl
      rw [List.foldl_cons, hupd, hfil]
      exact ih acc htail hc'
    by_cases hcM : c = 'M'
    · subst hcM
      have hnm : 'm' ∉ rest := by
        have hhead2 : (!(decide ('m' ∈ rest))) = true := hhead
        simpa [Bool.not_eq_true', decide_eq_false_iff_not] using hhead2
      have hupd : DiffFilter.update acc 'M' = { acc with modified := true } := rfl
      have hfil : List.filter (fun ch => !ch.isLower) ('M' :: rest)
          = 'M' :: List.filter (fun ch => !ch.isLower) rest := rfl
      rw [List.foldl_cons, hupd, hfil, List.foldl_cons, hupd]
      refine ih _ htail ⟨fun hx hm => h1 hx (List.mem_cons_of_mem _ hm),
        fun hx hm => h2 hx (List.mem_cons_of_mem _ hm),
        fun _ => hnm,
        fun hx hm => h4 hx (List.mem_cons_of_mem _ hm),
        fun hx hm => h5 hx (List.mem_cons_of_mem _ hm),
        fun hx hm => h6 hx (List.mem_cons_of_mem _ hm)⟩
    by_cases hcr : c = 'r'
    · subst hcr
      have hacc : acc.rename = false := by
        cases hy : acc.rename
        · rfl
        · exact absurd (List.mem_cons_self 'r' rest) (h4 hy)
      have hupd : DiffFilter.update acc 'r' = acc := by
        obtain ⟨fa, fd, fm, fr, ft, fu⟩ := acc
        have hacc2 : fr = false := hacc
        subst hacc2
        rfl
      have hfil : List.filter (fun ch => !ch.isLower) ('r' :: rest)
          = List.filter (fun ch => !ch.isLower) rest := rfl
      rw [List.foldl_cons, hupd, hfil]
      exact ih acc htail hc'
    by_cases hcR : c = 'R'
    · subst hcR
      have hnr2 : 'r' ∉ rest := by
        have hhead2 : (!(decide ('r' ∈ rest))) = true := hhead
        simpa [Bool.not_eq_true', decide_eq_false_iff_not] using hhead2
      have hupd : DiffFilter.update acc 'R' = { acc with rename := true } := rfl
      have hfil : List.filter (fun ch => !ch.isLower) ('R' :: rest)
          = 'R' :: List.filter (fun ch => !ch.isLower) rest := rfl
      rw [List.foldl_cons, hupd, hfil, List.foldl_cons, hupd]
      refine ih _ htail ⟨fun hx hm => h1 hx (List.mem_cons_of_mem _ hm),
        fun hx hm => h2 hx (List.mem_cons_of_mem _ hm),
        fun hx hm => h3 hx (List.mem_cons_of_mem _ hm),
        fun _ => hnr2,
        fun hx hm => h5 hx (List.mem_cons_of_mem _ hm),
        fun hx hm => h6 hx (List.mem_cons_of_mem _ hm)⟩
    by_cases hct : c = 't'
    · subst hct
      have hacc : acc.type_changed = false := by
        cases hy : acc.type_changed
        · rfl
        · exact absurd (List.mem_cons_self 't' rest) (h5 hy)
      have hupd : DiffFilter.update acc 't' = acc := by
        obtain ⟨fa, fd, fm, fr, ft, fu⟩ := acc
        have hacc2 : ft = false := hacc
        subst hacc2
        rfl
      have hfil : List.filter (fun ch => !ch.isLower) ('t' :: rest)
          = List.filter (fun ch => !ch.isLower) rest := rfl
      rw [List.foldl_cons, hupd, hfil]
      exact ih acc htail hc'
    by_cases hcT : c = 'T'
    · subst hcT
      have hnt : 't' ∉ rest := by
        have hhead2 : (!(decide ('t' ∈ rest))) = true := hhead
        simpa [Bool.not_eq_true', decide_eq_false_iff_not] using hhead2
      have hupd : DiffFilter.update acc 'T' = { acc with type_changed := true } := rfl
      have hfil : List.filter (fun ch => !ch.isLower) ('T' :: rest)
          = 'T' :: List.filter (fun ch => !ch.isLower) rest := rfl
      rw [List.foldl_cons, hupd, hfil, List.foldl_cons, hupd]
      refine ih _ htail ⟨fun hx hm => h1 hx (List.mem_cons_of_mem _ hm),
        fun hx hm => h2 hx (List.mem_cons_of_mem _ hm),
        fun hx hm => h3 hx (List.mem_cons_of_mem _ hm),
        fun hx hm => h4 hx (List.mem_cons_of_mem _ hm),
        fun _ => hnt,
        fun hx hm => h6 hx (List.mem_cons_of_mem _ hm)⟩
    by_cases hcu : c = 'u'
    · subst hcu
      have hacc : acc.unknown = false := by
        cases hy : acc.unknown
        · rfl
        · exact absurd (List.mem_cons_self 'u' rest) (h6 hy)
      have hupd : DiffFilter.update acc 'u' = acc := by
        obtain ⟨fa, fd, fm, fr, ft, fu⟩ := acc
        have hacc2 : fu = false := hacc
        subst hacc2
        rfl
      have hfil : List.filter (fun ch => !ch.isLower) ('u' :: rest)
          = List.filter (fun ch => !ch.isLower) rest := rfl
      rw [List.foldl_cons, hupd, hfil]
      exact ih acc htail hc'
    by_cases hcU : c = 'U'
    · subst hcU
      have hnu : 'u' ∉ rest := by
        have hhead2 : (!(decide ('u' ∈ rest))) = true := hhead
        simpa [Bool.not_eq_true', decide_eq_false_iff_not] using hhead2
      have hupd : DiffFilter.update acc 'U' = { acc with unknown := true } := rfl
      have hfil : List.filter (fun ch => !ch.isLower) ('U' :: rest)
          = 'U' :: List.filter (fun ch => !ch.isLower) rest := rfl
      rw [List.foldl_cons, hupd, hfil, List.foldl_cons, hupd]
      refine ih _ htail ⟨fun hx hm => h1 hx (List.mem_cons_of_mem _ hm),
        fun hx hm => h2 hx (List.mem_cons_of_mem _ hm),
        fun hx hm => h3 hx (List.mem_cons_of_mem _ hm),
        fun hx hm => h4 hx (List.mem_cons_of_mem _ hm),
        fun hx hm => h5 hx (List.mem_cons_of_mem _ hm),
        fun _ => hnu⟩
    have hupd : DiffFilter.update acc c = acc := by
      simp [DiffFilter.update, hca, hcA, hcd, hcD, hcm, hcM, hcr, hcR, hct, hcT, hcu, hcU]
    by_cases hl : c.isLower = true
    · have hfil : List.filter (fun ch => !ch.isLower) (c :: rest)
          = List.filter (fun ch => !ch.isLower) rest := by
        simp [List.filter_cons, hl]
      rw [List.foldl_cons, hupd, hfil]
      exact ih acc htail hc'
    · have hl2 : c.isLower = false := by
        cases hy : c.isLower
        · rfl
        · exact absurd hy hl
      have hfil : List.filter (fun ch => !ch.isLower) (c :: rest)
          = c :: List.filter (fun ch => !ch.isLower) rest := by
        simp [List.filter_cons, hl2]
      rw [List.foldl_cons, hupd, hfil, List.foldl_cons, hupd]
      exact ih acc htail hc'

/-- Claim C9 (amended): deleting the lowercase letters of a pattern leaves
the resulting `DiffFilter` unchanged PROVIDED no lowercase letter of
`{a,d,m,r,t,u}` follows an uppercase occurrence of the same letter; in
general a lowercase letter re-disables a category enabled by an earlier
uppercase letter (see the counterexample `"Aa"`). -/
theorem diff_filter_lowercase_noop (s : String) (h : noReDisable s.toList = true) :
    DiffFilter.fromPattern s = DiffFilter.fromPattern (dropLowercase s) := by
  have h0 : accCompat ⟨false, false, false, false, false, false⟩ s.toList := by
    refine ⟨?_, ?_, ?_, ?_, ?_, ?_⟩ <;> intro hx <;> exact absurd hx (by decide)
  exact foldl_update_dropLower s.toList ⟨false, false, false, false, false, false⟩ h h0

/-- Witness for `diff_filter_lowercase_noop` at the pattern `"aAdM"`. -/
theorem diff_filter_lowercase_noop_witness :
    noReDisable "aAdM".toList = true
      ∧ DiffFilter.fromPattern "aAdM" = DiffFilter.fromPattern (dropLowercase "aAdM") :=
  ⟨by decide, diff_filter_lowercase_noop "aAdM" (by decide)⟩
